import Mathlib
/-!
Formal model of the categorical hyperparameter engine of ConfigSpace
(`src/ConfigSpace/hyperparameters/categorical.py`) together with the part of
the PCS text codec exercised by `test/read_and_write/test_pcs_converter.py`.

Modelling conventions:
* Python exceptions are modelled by `Except PyError`; the distinct Python
  exception classes (`TypeError`, `ValueError`, `ZeroDivisionError`,
  `IndexError`) are the constructors of `PyError`.
* Python floats are modelled by exact rationals `ℚ`; the numeric claims of the
  spec are about exact values ("within floating tolerance"), which the
  rational model realises exactly.
* Numpy index arrays of whole-valued `f64` entries (`np.arange`, the cached
  neighbor arrays) are modelled by `List ℕ`: every value they ever hold is a
  nonnegative integer below the categorical size.
* `np.random.RandomState` is external to the repository.  It is modelled as a
  stream of draws `ℕ → ℕ`; `RandomState.shuffle` applies a seed-determined
  permutation to its argument, modelled by a seed-driven selection shuffle
  (`shuffle` below).  The claims depend only on the output being a
  seed-determined rearrangement of the input, which holds for both.
-/
namespace ConfigSpaceCat

/-- Exceptions raised by the modelled Python code paths. -/
inductive PyError where
  | typeError (msg : String)
  | valueError (msg : String)
  | zeroDivisionError
  | indexError
deriving DecidableEq

/-- Argument passed as `choices`: an ordered sequence (list/tuple) or an
unordered `set`.  Python `None` entries are modelled by `Option.none`. -/
inductive ChoicesArg (α : Type) where
  | seq (l : List (Option α))
  | unorderedSet (l : List (Option α))
deriving DecidableEq

/-- Elements of the `choices` argument, in iteration order. -/
def ChoicesArg.list {α : Type} : ChoicesArg α → List (Option α)
  | .seq l => l
  | .unorderedSet l => l

/-- Whether the `choices` argument is an unordered set
(`isinstance(choices, Set)` in the source). -/
def ChoicesArg.isSet {α : Type} : ChoicesArg α → Bool
  | .seq _ => false
  | .unorderedSet _ => true

/-- Argument passed as `weights`: `None`, an ordered sequence, or an
unordered `set`. -/
inductive WeightsArg where
  | noneArg
  | seq (w : List ℚ)
  | unorderedSet (w : List ℚ)
deriving DecidableEq

/-- Whether the `weights` argument is an unordered set
(`isinstance(weights, set)` in the source). -/
def WeightsArg.isSet : WeightsArg → Bool
  | .noneArg => false
  | .seq _ => false
  | .unorderedSet _ => true

/-- The fields of `CategoricalHyperparameter` the claims are about
(`categorical.py`, lines 109-129).  `meta`, the vector distribution, the
transformer and the value cast carry no content used by any claim and are
omitted. -/
structure CategoricalHyperparameter (α : Type) where
  choices : List α
  weights : Option (List ℚ)
  name : String
  default_value : α
  size : ℕ
  probabilities : List ℚ
deriving DecidableEq

/-- Model of `np.argmax` on a rational vector: index and value of the first
occurrence of the maximum (`np.argmax` returns the first maximal index). -/
def argmaxPair : List ℚ → ℕ × ℚ
  | [] => (0, 0)
  | [x] => (0, x)
  | x :: y :: t =>
    let p := argmaxPair (y :: t)
    if p.2 > x then (p.1 + 1, p.2) else (0, x)

/-- Model of `np.argmax`: index of the first occurrence of the maximum. -/
def np_argmax (l : List ℚ) : ℕ := (argmaxPair l).1

/-- Lines 217-232 of `categorical.py`: compute `probabilities` (uniform
`np.full(size, 1/size)` — a `ZeroDivisionError` when `size = 0` — or
normalized weights) and resolve the default value (`choices[0]` when uniform,
`choices[np.argmax(probabilities)]` when weighted). -/
def finishInit {α : Type} (name : String) (choices : List α)
    (default_value : Option α) (tupled_weights : Option (List ℚ)) :
    Except PyError (CategoricalHyperparameter α) :=
  let size := choices.length
  match tupled_weights with
  | none =>
    if size = 0 then .error .zeroDivisionError
    else
      let probabilities := List.replicate size ((1 : ℚ) / (size : ℚ))
      match default_value, choices with
      | some d, _ => .ok ⟨choices, none, name, d, size, probabilities⟩
      | none, c :: _ => .ok ⟨choices, none, name, c, size, probabilities⟩
      | none, [] => .error .indexError
  | some w =>
    let probabilities := w.map (fun x => x / w.sum)
    match default_value with
    | some d => .ok ⟨choices, some w, name, d, size, probabilities⟩
    | none =>
      match choices[np_argmax (w.map (fun x => x / w.sum))]? with
      | some c => .ok ⟨choices, some w, name, c, size, probabilities⟩
      | none => .error .indexError

/-- Lines 211-215 of `categorical.py`: an explicitly supplied default value
must be one of the choices, else `ValueError`. -/
def checkDefault {α : Type} [DecidableEq α] (name : String) (choices : List α)
    (default_value : Option α) (tupled_weights : Option (List ℚ)) :
    Except PyError (CategoricalHyperparameter α) :=
  match default_value with
  | some d =>
    if d ∉ choices then
      .error (.valueError "The default value has to be one of the choices")
    else finishInit name choices (some d) tupled_weights
  | none => finishInit name choices none tupled_weights

/-- Model of `CategoricalHyperparameter.__init__` (lines 131-281 of
`categorical.py`), with the Python validation checks in source order:
`None` choice (`TypeError`), set choices (`TypeError`), duplicate choices
(`ValueError`), set weights (`TypeError`), weight/choice length mismatch,
negative weight, all-zero weights (`ValueError` each), default not among the
choices (`ValueError`), then probability computation and default
resolution. -/
def mkCategorical {α : Type} [DecidableEq α] (name : String)
    (choicesArg : ChoicesArg α) (default_value : Option α)
    (weightsArg : WeightsArg) :
    Except PyError (CategoricalHyperparameter α) :=
  if (choicesArg.list).any (fun c => c.isNone) then
    .error (.typeError "Choice None is not supported")
  else if choicesArg.isSet then
    .error (.typeError "Using a set of choices is prohibited")
  else
    let choices := (choicesArg.list).reduceOption
    if ¬ choices.Nodup then
      .error (.valueError "Choices contain a repeated choice, while only a single oocurence is allowed")
    else
      match weightsArg with
      | .unorderedSet _ =>
        .error (.typeError "Using a set of weights is prohibited")
      | .seq w =>
        if w.length ≠ choices.length then
          .error (.valueError "The list of weights and the list of choices are required to be of same length")
        else if w.any (fun x => decide (x < 0)) then
          .error (.valueError "Negative weights are not allowed")
        else if w.all (fun x => decide (x = 0)) then
          .error (.valueError "All weights are zero, at least one weight has to be strictly positive")
        else checkDefault name choices default_value (some w)
      | .noneArg => checkDefault name choices default_value none

/-- Line 26 of `categorical.py`. -/
def CACHE_NEIGHBORS_CATEGORICAL_SIZE : ℕ := 5

/-- Line 30 of `categorical.py`. -/
def CACHE_ARANGE_CATEGORICAL_SIZE : ℕ := 25

/-- The `NeighborhoodCat` dataclass (lines 35-51): size plus the two optional
cache tiers. -/
structure NeighborhoodCat where
  size : ℕ
  _cached_arange : Option (List ℕ)
  _cached_neighbors : Option (List (List ℕ))
deriving DecidableEq

/-- Model of `NeighborhoodCat.__post_init__` (lines 53-64): for sizes up to 5
precompute, for every pivot `i`, the concatenation of `arange[:i]` and
`arange[i+1:]`; for sizes up to 25 cache the arange itself. -/
def NeighborhoodCat.postInit (size : ℕ) : NeighborhoodCat :=
  if size ≤ CACHE_NEIGHBORS_CATEGORICAL_SIZE then
    ⟨size, none,
      some ((List.range size).map (fun i =>
        (List.range size).take i ++ (List.range size).drop (i + 1)))⟩
  else if size ≤ CACHE_ARANGE_CATEGORICAL_SIZE then
    ⟨size, some (List.range size), none⟩
  else ⟨size, none, none⟩

/-- Selection shuffle driven by the seed stream: at fuel `k` the element at
index `seed k % length` is extracted and placed first.  This models the
seed-determined permutation applied by `np.random.RandomState.shuffle`. -/
def shuffleGo {α : Type} (seed : ℕ → ℕ) : ℕ → List α → List α
  | _, [] => []
  | 0, l => l
  | k + 1, l =>
    let i := seed k % l.length
    match l[i]? with
    | some a => a :: shuffleGo seed k (l.eraseIdx i)
    | none => l

/-- Model of `seed.shuffle` on a fresh buffer: returns the shuffled contents
(the Python call permutes the buffer in place and returns `None`). -/
def shuffle {α : Type} (seed : ℕ → ℕ) (l : List α) : List α :=
  shuffleGo seed l.length l

/-- Model of `NeighborhoodCat.__call__` (lines 66-91).  Tier A (cached
neighbors): shuffle a copy of the cached array for the pivot and return it
with no truncation.  Tiers B/C: slice the (cached or fresh) arange around the
pivot, concatenate, shuffle, truncate to `n`.  The second component is the
state after the call: `.copy()` (line 78) and `np.concatenate` (line 89)
allocate fresh buffers, so the in-place shuffle never touches either cache
and the state is returned componentwise unchanged. -/
def NeighborhoodCat.call (nb : NeighborhoodCat) (vector : ℕ) (n : ℕ)
    (seed : ℕ → ℕ) : List ℕ × NeighborhoodCat :=
  let pivot := vector
  match nb._cached_neighbors with
  | some cached => (shuffle seed (cached.getD pivot []), nb)
  | none =>
    let r := match nb._cached_arange with
      | some r => r
      | none => List.range nb.size
    ((shuffle seed (r.take pivot ++ r.drop (pivot + 1))).take n, nb)

/-- One step of an arbitrary call sequence against a neighborhood generator:
perform the call, keep the resulting state. -/
def neighborhoodStep (st : NeighborhoodCat) (c : ℕ × ℕ × (ℕ → ℕ)) :
    NeighborhoodCat :=
  (st.call c.1 c.2.1 c.2.2).2

inductive CtorOutcome where
  | ok
  | typeError
  | valueError
  | zeroDivision
  | indexErr
deriving DecidableEq

def resultClass {α : Type} :
    Except PyError (CategoricalHyperparameter α) → CtorOutcome
  | .ok _ => .ok
  | .error (.typeError _) => .typeError
  | .error (.valueError _) => .valueError
  | .error .zeroDivisionError => .zeroDivision
  | .error .indexError => .indexErr

def specWeightsBad (len : ℕ) : WeightsArg → Prop
  | .seq w => w.length ≠ len ∨ (∃ x ∈ w, x < 0) ∨ (∀ x ∈ w, x = 0)
  | _ => False

instance (len : ℕ) : (warg : WeightsArg) → Decidable (specWeightsBad len warg)
  | .noneArg => isFalse (fun h => h)
  | .seq _ => inferInstanceAs (Decidable (_ ∨ _))
  | .unorderedSet _ => isFalse (fun h => h)

def specDefaultBad {α : Type} [DecidableEq α] (choices : List α) :
    Option α → Prop
  | some d0 => d0 ∉ choices
  | none => False

instance {α : Type} [DecidableEq α] (choices : List α) :
    (dv : Option α) → Decidable (specDefaultBad choices dv)
  | some d0 => inferInstanceAs (Decidable (d0 ∉ choices))
  | none => isFalse (fun h => h)

def specCtorOutcome {α : Type} [DecidableEq α] (carg : ChoicesArg α)
    (dv : Option α) (warg : WeightsArg) : CtorOutcome :=
  if (carg.list).any (fun c => c.isNone) then .typeError
  else if carg.isSet then .typeError
  else if ¬ (carg.list.reduceOption).Nodup then .valueError
  else if warg.isSet then .typeError
  else if specWeightsBad carg.list.reduceOption.length warg then .valueError
  else if specDefaultBad carg.list.reduceOption dv then .valueError
  else if carg.list.reduceOption = [] then .zeroDivision
  else .ok

/-- Model of `CategoricalHyperparameter.__eq__` (lines 293-315): equal name,
default value and choice count, and every (choice, probability) pair of the
left operand must find its choice in the right operand's choices with an
exactly equal probability at its first occurrence there. -/
def CategoricalHyperparameter.eq {α : Type} [DecidableEq α]
    (a other : CategoricalHyperparameter α) : Bool :=
  if a.name ≠ other.name ∨ a.default_value ≠ other.default_value ∨
      a.choices.length ≠ other.choices.length then
    false
  else
    (a.choices.zip a.probabilities).all (fun cp =>
      if cp.1 ∈ other.choices then
        decide (cp.2 = other.probabilities.getD
          (other.choices.indexOf cp.1) 0)
      else false)

/-- Model of `CategoricalHyperparameter.to_uniform` (lines 283-291): call the
constructor again with the same name, choices, default and meta but
`weights=None`.  Being a plain function of `d`, it cannot modify `d`. -/
def CategoricalHyperparameter.to_uniform {α : Type} [DecidableEq α]
    (d : CategoricalHyperparameter α) :
    Except PyError (CategoricalHyperparameter α) :=
  mkCategorical d.name (ChoicesArg.seq (d.choices.map some))
    (some d.default_value) WeightsArg.noneArg

/-- The two PCS dialects (old: no type keyword; new: a `categorical` type
keyword after the name). -/
inductive PCSDialect where
  | oldDialect
  | newDialect
deriving DecidableEq

/-- Modelled from the spec: the error message of the PCS writer when asked to
serialize a weighted categorical (the writer source `pcs.py` is not under
src/; only its test is, which matches the message on the phrase
"The pcs format does not support"). -/
def pcsWeightErrMsg : String :=
  "The pcs format does not support categorical hyperparameters with weights"

/-- Modelled from the spec: writing one categorical hyperparameter as a PCS
grammar line (section 4.3: old dialect writes the name, brace-wrapped comma
separated choices and bracketed default; the new dialect adds the
`categorical` keyword).  Weighted categoricals cannot be represented in the
grammar — no weight syntax exists — so writing one is a fatal error, never a
silent approximation. -/
def pcs_write_categorical_line (dialect : PCSDialect)
    (hp : CategoricalHyperparameter String) : Except String String :=
  if hp.weights.isSome then .error pcsWeightErrMsg
  else
    .ok (hp.name ++
      (match dialect with
       | .oldDialect => " "
       | .newDialect => " categorical ") ++
      "\x7b" ++ String.intercalate ", " hp.choices ++ "\x7d [" ++
      hp.default_value ++ "]")

/-- Modelled from the spec: the hyperparameter block of the PCS writer —
each hyperparameter on one line, aborting with the fatal error of the first
unwritable hyperparameter. -/
def pcs_write (dialect : PCSDialect)
    (hps : List (CategoricalHyperparameter String)) :
    Except String (List String) :=
  match hps with
  | [] => .ok []
  | hp :: t =>
    match pcs_write_categorical_line dialect hp with
    | .error e => .error e
    | .ok line =>
      match pcs_write dialect t with
      | .error e => .error e
      | .ok lines => .ok (line :: lines)

/-! Basic facts about the shuffle model. -/

theorem perm_getElem_cons_eraseIdx {α : Type} (l : List α) (i : ℕ)
    (h : i < l.length) : (l[i] :: l.eraseIdx i).Perm l := by
  conv_rhs => rw [← List.take_append_drop i l, List.drop_eq_getElem_cons h]
  rw [List.eraseIdx_eq_take_drop_succ]
  exact List.perm_middle.symm

theorem shuffleGo_perm {α : Type} (seed : ℕ → ℕ) :
    ∀ (k : ℕ) (l : List α), (shuffleGo seed k l).Perm l := by
  intro k
  induction k with
  | zero => intro l; cases l <;> simp [shuffleGo]
  | succ k ih =>
    intro l
    cases l with
    | nil => simp [shuffleGo]
    | cons a t =>
      have hlen : seed k % (a :: t).length < (a :: t).length :=
        Nat.mod_lt _ (by simp)
      simp only [shuffleGo, List.getElem?_eq_getElem hlen]
      exact ((ih _).cons _).trans (perm_getElem_cons_eraseIdx _ _ hlen)

theorem shuffle_perm {α : Type} (seed : ℕ → ℕ) (l : List α) :
    (shuffle seed l).Perm l :=
  shuffleGo_perm seed l.length l

theorem shuffle_length {α : Type} (seed : ℕ → ℕ) (l : List α) :
    (shuffle seed l).length = l.length :=
  (shuffle_perm seed l).length_eq

/-! The two slices of an arange around a pivot are exactly the ascending list
of all other indices. -/

theorem range_take_drop_eq_filter (s i : ℕ) (h : i < s) :
    (List.range s).take i ++ (List.range s).drop (i + 1) =
      (List.range s).filter (fun j => decide (j ≠ i)) := by
  induction s with
  | zero => omega
  | succ s ih =>
    rcases Nat.lt_succ_iff_lt_or_eq.mp h with h' | rfl
    · rw [List.range_succ,
        List.take_append_of_le_length (by simpa using h'.le),
        List.drop_append_of_le_length (by simpa using h'),
        List.filter_append, ← List.append_assoc, ih h']
      simp [Nat.ne_of_gt h']
    · have h1 : (List.range i).filter (fun j => decide (j ≠ i)) =
          List.range i := by
        apply List.filter_eq_self.mpr
        intro a ha
        simp [Nat.ne_of_lt (List.mem_range.mp ha)]
      have h2 : (List.filter (fun j => decide (j ≠ i)) [i]) = [] := by simp
      rw [List.range_succ, List.filter_append,
        List.take_append_of_le_length (by simp),
        List.drop_eq_nil_of_le (by simp), List.take_range, h1, h2]
      simp

theorem length_range_take_drop (s i : ℕ) (h : i < s) :
    ((List.range s).take i ++ (List.range s).drop (i + 1)).length = s - 1 := by
  rw [List.length_append, List.length_take, List.length_drop,
    List.length_range]
  omega

/-! Facts about the argmax model: the result is the first index attaining the
maximum value. -/

theorem argmaxPair_fst_lt : ∀ (l : List ℚ), l ≠ [] → (argmaxPair l).1 < l.length := by
  intro l
  induction l with
  | nil => intro h; exact absurd rfl h
  | cons x xs ih =>
    intro _
    cases xs with
    | nil => simp [argmaxPair]
    | cons y t =>
      simp only [argmaxPair]
      split
      · exact Nat.succ_lt_succ (ih (by simp))
      · show 0 < (x :: y :: t).length
        simp

theorem argmaxPair_snd_getElem : ∀ (l : List ℚ), l ≠ [] →
    l[(argmaxPair l).1]? = some (argmaxPair l).2 := by
  intro l
  induction l with
  | nil => intro h; exact absurd rfl h
  | cons x xs ih =>
    intro _
    cases xs with
    | nil => simp [argmaxPair]
    | cons y t =>
      simp only [argmaxPair]
      split
      · show (x :: y :: t)[(argmaxPair (y :: t)).1 + 1]? =
          some (argmaxPair (y :: t)).2
        rw [List.getElem?_cons_succ]
        exact ih (by simp)
      · show (x :: y :: t)[0]? = some x
        simp

theorem argmaxPair_le : ∀ (l : List ℚ) (j : ℕ) (q : ℚ),
    l[j]? = some q → q ≤ (argmaxPair l).2 := by
  intro l
  induction l with
  | nil => intro j q h; simp at h
  | cons x xs ih =>
    intro j q h
    cases xs with
    | nil =>
      cases j with
      | zero => simp_all [argmaxPair]
      | succ j => simp at h
    | cons y t =>
      simp only [argmaxPair]
      split
      · rename_i hgt
        show q ≤ (argmaxPair (y :: t)).2
        cases j with
        | zero =>
          simp only [List.getElem?_cons_zero, Option.some_inj] at h
          subst h
          exact le_of_lt hgt
        | succ j =>
          simp only [List.getElem?_cons_succ] at h
          exact ih j q h
      · rename_i hle
        show q ≤ x
        cases j with
        | zero =>
          simp only [List.getElem?_cons_zero, Option.some_inj] at h
          subst h
          exact le_refl _
        | succ j =>
          simp only [List.getElem?_cons_succ] at h
          exact le_trans (ih j q h) (le_of_not_lt hle)

theorem argmaxPair_first : ∀ (l : List ℚ) (j : ℕ) (q : ℚ),
    j < (argmaxPair l).1 → l[j]? = some q → q < (argmaxPair l).2 := by
  intro l
  induction l with
  | nil => intro j q hj h; simp [argmaxPair] at hj
  | cons x xs ih =>
    intro j q hj h
    cases xs with
    | nil => simp [argmaxPair] at hj
    | cons y t =>
      simp only [argmaxPair] at hj ⊢
      split at hj
      · rename_i hgt
        rw [if_pos hgt]
        show q < (argmaxPair (y :: t)).2
        cases j with
        | zero =>
          simp only [List.getElem?_cons_zero, Option.some_inj] at h
          subst h
          exact hgt
        | succ j =>
          simp only [List.getElem?_cons_succ] at h
          have hj' : j < (argmaxPair (y :: t)).1 :=
            Nat.lt_of_succ_lt_succ hj
          exact ih j q hj' h
      · exact absurd hj (Nat.not_lt_zero j)

/-! Shape of the neighborhood generator per cache tier. -/

theorem getD_map_range (s i : ℕ) (f : ℕ → List ℕ) (h : i < s) :
    (((List.range s).map f).getD i []) = f i := by
  rw [List.getD_eq_getElem?_getD, List.getElem?_map, List.getElem?_range h]
  rfl

theorem postInit_of_le (s : ℕ) (hs : s ≤ 5) :
    NeighborhoodCat.postInit s =
      ⟨s, none, some ((List.range s).map (fun i =>
        (List.range s).take i ++ (List.range s).drop (i + 1)))⟩ := by
  unfold NeighborhoodCat.postInit CACHE_NEIGHBORS_CATEGORICAL_SIZE
  rw [if_pos hs]

theorem call_eq_of_le (s p n : ℕ) (hs : s ≤ 5) (hp : p < s) (seed : ℕ → ℕ) :
    ((NeighborhoodCat.postInit s).call p n seed).1 =
      shuffle seed ((List.range s).take p ++ (List.range s).drop (p + 1)) := by
  rw [postInit_of_le s hs]
  show shuffle seed ((((List.range s).map (fun i =>
    (List.range s).take i ++ (List.range s).drop (i + 1))).getD p [])) = _
  rw [getD_map_range s p _ hp]

theorem call_eq_of_gt (s p n : ℕ) (hs : 5 < s) (seed : ℕ → ℕ) :
    ((NeighborhoodCat.postInit s).call p n seed).1 =
      (shuffle seed ((List.range s).take p ++ (List.range s).drop (p + 1))).take n := by
  unfold NeighborhoodCat.postInit CACHE_NEIGHBORS_CATEGORICAL_SIZE
    CACHE_ARANGE_CATEGORICAL_SIZE
  rw [if_neg (by omega)]
  by_cases h25 : s ≤ 25
  · rw [if_pos h25]; rfl
  · rw [if_neg h25]; rfl

theorem call_snd (st : NeighborhoodCat) (v n : ℕ) (seed : ℕ → ℕ) :
    (st.call v n seed).2 = st := by
  cases hc : st._cached_neighbors <;> simp [NeighborhoodCat.call, hc]

theorem foldl_neighborhoodStep (calls : List (ℕ × ℕ × (ℕ → ℕ))) :
    ∀ st : NeighborhoodCat, calls.foldl neighborhoodStep st = st := by
  induction calls with
  | nil => intro st; rfl
  | cons c cs ih =>
    intro st
    rw [List.foldl_cons]
    have : neighborhoodStep st c = st := call_snd st c.1 c.2.1 c.2.2
    rw [this, ih st]

/-! Inversion facts about successful construction. -/

theorem reduceOption_map_some {α : Type} (l : List α) :
    (l.map some).reduceOption = l := by
  induction l with
  | nil => rfl
  | cons x t ih => simp [List.reduceOption_cons_of_some, ih]

theorem sum_map_div (w : List ℚ) (c : ℚ) :
    (w.map (fun x => x / c)).sum = w.sum / c := by
  induction w with
  | nil => simp
  | cons x t ih => simp [ih, add_div]

theorem sum_pos_of_nonneg_of_ne_zero (w : List ℚ)
    (h1 : ∀ x ∈ w, 0 ≤ x) (h2 : ∃ x ∈ w, x ≠ 0) : 0 < w.sum := by
  obtain ⟨x, hx, hxne⟩ := h2
  have hxpos : 0 < x := lt_of_le_of_ne (h1 x hx) (Ne.symm hxne)
  exact lt_of_lt_of_le hxpos (List.single_le_sum h1 x hx)

theorem mk_ok_nodup {α : Type} [DecidableEq α] {name : String}
    {carg : ChoicesArg α} {dv : Option α} {warg : WeightsArg}
    {d : CategoricalHyperparameter α}
    (h : mkCategorical name carg dv warg = Except.ok d) :
    d.choices.Nodup := by
  simp only [mkCategorical, checkDefault, finishInit] at h
  repeat' (split at h)
  all_goals try exact Except.noConfusion h
  all_goals injection h with h2
  all_goals subst h2
  all_goals simp_all

theorem mk_ok_size {α : Type} [DecidableEq α] {name : String}
    {carg : ChoicesArg α} {dv : Option α} {warg : WeightsArg}
    {d : CategoricalHyperparameter α}
    (h : mkCategorical name carg dv warg = Except.ok d) :
    d.size = d.choices.length := by
  simp only [mkCategorical, checkDefault, finishInit] at h
  repeat' (split at h)
  all_goals try exact Except.noConfusion h
  all_goals injection h with h2
  all_goals subst h2
  all_goals rfl

theorem mk_ok_prob_length {α : Type} [DecidableEq α] {name : String}
    {carg : ChoicesArg α} {dv : Option α} {warg : WeightsArg}
    {d : CategoricalHyperparameter α}
    (h : mkCategorical name carg dv warg = Except.ok d) :
    d.probabilities.length = d.choices.length := by
  simp only [mkCategorical, checkDefault, finishInit] at h
  repeat' (split at h)
  all_goals try exact Except.noConfusion h
  all_goals injection h with h2
  all_goals subst h2
  all_goals simp_all

theorem mk_ok_ne_nil {α : Type} [DecidableEq α] {name : String}
    {carg : ChoicesArg α} {dv : Option α} {warg : WeightsArg}
    {d : CategoricalHyperparameter α}
    (h : mkCategorical name carg dv warg = Except.ok d) :
    d.choices ≠ [] := by
  simp only [mkCategorical, checkDefault, finishInit] at h
  repeat' (split at h)
  all_goals try exact Except.noConfusion h
  all_goals injection h with h2
  all_goals subst h2
  all_goals intro hnil
  all_goals simp_all

theorem mk_ok_default_mem {α : Type} [DecidableEq α] {name : String}
    {carg : ChoicesArg α} {dv : Option α} {warg : WeightsArg}
    {d : CategoricalHyperparameter α}
    (h : mkCategorical name carg dv warg = Except.ok d) :
    d.default_value ∈ d.choices := by
  simp only [mkCategorical, checkDefault, finishInit] at h
  repeat' (split at h)
  all_goals try exact Except.noConfusion h
  all_goals injection h with h2
  all_goals subst h2
  all_goals first
    | exact List.getElem?_mem (by assumption)
    | simp_all

/-- C1 counterexample: with size 5 (small-domain cached tier), pivot 0 and
requested count n = 1, the generator returns all 4 neighbors — the claimed
truncation to min(n, size-1) = 1 does not happen on the cached tier. -/
theorem call_length_claim_cex :
    (((NeighborhoodCat.postInit 5).call 0 1 (fun _ => 0)).1).length = 4 ∧
    ¬ (((NeighborhoodCat.postInit 5).call 0 1 (fun _ => 0)).1).length =
        min 1 (5 - 1) := by
  decide

/-- C1 (amended): for every size s, pivot p < s and requested count n, the
generator output has length s - 1 on the small-domain cached tier (s ≤ 5),
where the shuffled cached array is returned with no truncation; on the other
tiers (s > 5) the output is truncated to length min(n, s-1). -/
theorem call_length_tiered (s p n : ℕ) (seed : ℕ → ℕ) (hp : p < s) :
    (s ≤ 5 → (((NeighborhoodCat.postInit s).call p n seed).1).length = s - 1) ∧
    (5 < s → (((NeighborhoodCat.postInit s).call p n seed).1).length =
        min n (s - 1)) := by
  constructor
  · intro hs
    rw [call_eq_of_le s p n hs hp seed, shuffle_length,
      length_range_take_drop s p hp]
  · intro hs
    rw [call_eq_of_gt s p n hs seed, List.length_take, shuffle_length,
      length_range_take_drop s p hp]

/-- Witness for the amended C1 at s = 6, p = 2, n = 3. -/
theorem call_length_tiered_witness :
    (((NeighborhoodCat.postInit 6).call 2 3 (fun _ => 0)).1).length =
      min 3 (6 - 1) :=
  (call_length_tiered 6 2 3 (fun _ => 0) (by decide)).2 (by decide)

/-- C3: for every size s ≥ 2 and pivot p < s, the generator called with
n = s - 1 returns a permutation of the ascending list of all indices below s
other than p: it has no repeats, never contains p, and covers every other
index. -/
theorem neighbors_full_perm (s p : ℕ) (seed : ℕ → ℕ) (_hs : 2 ≤ s)
    (hp : p < s) :
    (((NeighborhoodCat.postInit s).call p (s - 1) seed).1).Perm
        ((List.range s).filter (fun j => decide (j ≠ p))) ∧
    (((NeighborhoodCat.postInit s).call p (s - 1) seed).1).Nodup ∧
    p ∉ (((NeighborhoodCat.postInit s).call p (s - 1) seed).1) ∧
    (∀ j, j < s → j ≠ p →
      j ∈ (((NeighborhoodCat.postInit s).call p (s - 1) seed).1)) := by
  have hperm : (((NeighborhoodCat.postInit s).call p (s - 1) seed).1).Perm
      ((List.range s).take p ++ (List.range s).drop (p + 1)) := by
    by_cases h5 : s ≤ 5
    · rw [call_eq_of_le s p (s - 1) h5 hp seed]
      exact shuffle_perm _ _
    · rw [call_eq_of_gt s p (s - 1) (by omega) seed]
      have hlen : (shuffle seed ((List.range s).take p ++
          (List.range s).drop (p + 1))).length = s - 1 := by
        rw [shuffle_length, length_range_take_drop s p hp]
      rw [List.take_of_length_le (le_of_eq hlen)]
      exact shuffle_perm _ _
  have hperm2 : (((NeighborhoodCat.postInit s).call p (s - 1) seed).1).Perm
      ((List.range s).filter (fun j => decide (j ≠ p))) :=
    (range_take_drop_eq_filter s p hp) ▸ hperm
  refine ⟨hperm2, ?_, ?_, ?_⟩
  · exact hperm2.nodup_iff.mpr (List.Nodup.filter _ (List.nodup_range s))
  · intro hmem
    have := List.mem_filter.mp (hperm2.mem_iff.mp hmem)
    simp at this
  · intro j hj hjp
    exact hperm2.mem_iff.mpr
      (List.mem_filter.mpr ⟨List.mem_range.mpr hj, by simp [hjp]⟩)

/-- Witness for C3 at s = 3, p = 1 with a constant seed stream. -/
theorem neighbors_full_perm_witness :
    (((NeighborhoodCat.postInit 3).call 1 (3 - 1) (fun _ => 0)).1).Perm
      ((List.range 3).filter (fun j => decide (j ≠ 1))) :=
  (neighbors_full_perm 3 1 (fun _ => 0) (by decide) (by decide)).1

/-- C10: the caches are never mutated: after any sequence of calls (any
pivots, counts and seeds) the generator state equals the freshly constructed
one, the cached per-pivot neighbor list for each pivot i is still the
ascending list of all indices except i, and the cached arange is still the
ascending index list. -/
theorem caches_immutable (s : ℕ) (calls : List (ℕ × ℕ × (ℕ → ℕ))) :
    calls.foldl neighborhoodStep (NeighborhoodCat.postInit s) =
      NeighborhoodCat.postInit s ∧
    (∀ cached,
      (calls.foldl neighborhoodStep
          (NeighborhoodCat.postInit s))._cached_neighbors = some cached →
      cached.length = s ∧
      ∀ i, i < s → cached.getD i [] =
        (List.range s).filter (fun j => decide (j ≠ i))) ∧
    (∀ r,
      (calls.foldl neighborhoodStep
          (NeighborhoodCat.postInit s))._cached_arange = some r →
      r = List.range s) := by
  have hfold : calls.foldl neighborhoodStep (NeighborhoodCat.postInit s) =
      NeighborhoodCat.postInit s := foldl_neighborhoodStep calls _
  refine ⟨hfold, ?_, ?_⟩
  · intro cached hc
    rw [hfold] at hc
    by_cases h5 : s ≤ 5
    · rw [postInit_of_le s h5] at hc
      have hcc : cached = (List.range s).map (fun i =>
          (List.range s).take i ++ (List.range s).drop (i + 1)) := by
        simpa using hc.symm
      subst hcc
      constructor
      · simp
      · intro i hi
        rw [getD_map_range s i _ hi, range_take_drop_eq_filter s i hi]
    · unfold NeighborhoodCat.postInit CACHE_NEIGHBORS_CATEGORICAL_SIZE
        CACHE_ARANGE_CATEGORICAL_SIZE at hc
      rw [if_neg h5] at hc
      by_cases h25 : s ≤ 25
      · rw [if_pos h25] at hc
        simp at hc
      · rw [if_neg h25] at hc
        simp at hc
  · intro r hr
    rw [hfold] at hr
    by_cases h5 : s ≤ 5
    · rw [postInit_of_le s h5] at hr
      simp at hr
    · unfold NeighborhoodCat.postInit CACHE_NEIGHBORS_CATEGORICAL_SIZE
        CACHE_ARANGE_CATEGORICAL_SIZE at hr
      rw [if_neg h5] at hr
      by_cases h25 : s ≤ 25
      · rw [if_pos h25] at hr
        simpa using hr.symm
      · rw [if_neg h25] at hr
        simp at hr

/-- Witness for C10 with size 3 and one concrete call. -/
theorem caches_immutable_witness :
    ([((0 : ℕ), (2 : ℕ), fun _ => (0 : ℕ))].foldl neighborhoodStep
        (NeighborhoodCat.postInit 3) = NeighborhoodCat.postInit 3) ∧
    [[1, 2], [0, 2], [0, 1]].getD 1 [] =
      (List.range 3).filter (fun j => decide (j ≠ 1)) :=
  ⟨(caches_immutable 3 [((0 : ℕ), (2 : ℕ), fun _ => (0 : ℕ))]).1,
    ((caches_immutable 3 [((0 : ℕ), (2 : ℕ), fun _ => (0 : ℕ))]).2.1
      [[1, 2], [0, 2], [0, 1]] (by decide)).2 1 (by decide)⟩

theorem resultClass_mk {α : Type} [DecidableEq α] (name : String)
    (carg : ChoicesArg α) (dv : Option α) (warg : WeightsArg) :
    resultClass (mkCategorical name carg dv warg) =
      specCtorOutcome carg dv warg := by
  simp only [mkCategorical, specCtorOutcome]
  by_cases h1 : (carg.list).any (fun c => c.isNone) = true
  · rw [if_pos h1, if_pos h1]
    rfl
  · rw [if_neg h1, if_neg h1]
    by_cases h2 : carg.isSet = true
    · rw [if_pos h2, if_pos h2]
      rfl
    · rw [if_neg h2, if_neg h2]
      by_cases h3 : (carg.list.reduceOption).Nodup
      · rw [if_neg (not_not_intro h3), if_neg (not_not_intro h3)]
        cases warg with
        | unorderedSet w => rfl
        | noneArg =>
          dsimp only [WeightsArg.isSet]
          rw [if_neg Bool.false_ne_true,
            if_neg (show ¬ specWeightsBad carg.list.reduceOption.length
              WeightsArg.noneArg from fun h => h)]
          simp only [checkDefault]
          cases dv with
          | some d0 =>
            dsimp only
            by_cases hd : d0 ∈ carg.list.reduceOption
            · rw [if_neg (not_not_intro hd),
                if_neg (show ¬ specDefaultBad carg.list.reduceOption (some d0)
                  from fun h => h hd)]
              simp only [finishInit]
              by_cases hsz : carg.list.reduceOption.length = 0
              · exact absurd (List.length_pos_of_mem hd) (by omega)
              · rw [if_neg hsz, if_neg (fun h : carg.list.reduceOption = [] =>
                  hsz (by rw [h]; rfl))]
                rfl
            · rw [if_pos hd,
                if_pos (show specDefaultBad carg.list.reduceOption (some d0)
                  from hd)]
              rfl
          | none =>
            dsimp only
            rw [if_neg (show ¬ specDefaultBad carg.list.reduceOption none
              from fun h => h)]
            simp only [finishInit]
            by_cases hsz : carg.list.reduceOption.length = 0
            · rw [if_pos hsz, if_pos (List.length_eq_zero.mp hsz)]
              rfl
            · rw [if_neg hsz, if_neg (fun h : carg.list.reduceOption = [] =>
                hsz (by rw [h]; rfl))]
              cases hc : carg.list.reduceOption with
              | nil => exact absurd (by rw [hc]; rfl) hsz
              | cons c t => rfl
        | seq w =>
          dsimp only [WeightsArg.isSet]
          rw [if_neg Bool.false_ne_true]
          by_cases hlen : w.length = carg.list.reduceOption.length
          · rw [if_neg (not_not_intro hlen)]
            by_cases hneg : (w.any fun x => decide (x < 0)) = true
            · rw [if_pos hneg,
                if_pos (show specWeightsBad carg.list.reduceOption.length
                  (WeightsArg.seq w) from
                  Or.inr (Or.inl (by simpa using hneg)))]
              rfl
            · rw [if_neg hneg]
              by_cases hzero : (w.all fun x => decide (x = 0)) = true
              · rw [if_pos hzero,
                  if_pos (show specWeightsBad carg.list.reduceOption.length
                    (WeightsArg.seq w) from
                    Or.inr (Or.inr (by simpa using hzero)))]
                rfl
              · rw [if_neg hzero]
                have hbad : ¬ specWeightsBad carg.list.reduceOption.length
                    (.seq w) := by
                  intro hb
                  rcases hb with hb | hb | hb
                  · exact hb hlen
                  · exact hneg (by simpa using hb)
                  · exact hzero (by simpa using hb)
                rw [if_neg hbad]
                have hwne : w ≠ [] := by
                  intro hw
                  exact hzero (by simp [hw])
                have hcne : carg.list.reduceOption ≠ [] := by
                  intro hcc
                  rw [hcc] at hlen
                  exact hwne (List.length_eq_zero.mp (by simpa using hlen))
                simp only [checkDefault]
                cases dv with
                | some d0 =>
                  dsimp only
                  by_cases hd : d0 ∈ carg.list.reduceOption
                  · rw [if_neg (not_not_intro hd),
                      if_neg (show ¬ specDefaultBad carg.list.reduceOption
                        (some d0) from fun h => h hd)]
                    simp only [finishInit]
                    rw [if_neg hcne]
                    rfl
                  · rw [if_pos hd,
                      if_pos (show specDefaultBad carg.list.reduceOption
                        (some d0) from hd)]
                    rfl
                | none =>
                  dsimp only
                  rw [if_neg (show ¬ specDefaultBad carg.list.reduceOption none
                    from fun h => h)]
                  simp only [finishInit]
                  rw [if_neg hcne]
                  have hmne : (w.map (fun x => x / w.sum)) ≠ [] := by
                    simp [hwne]
                  have hlt : np_argmax (w.map (fun x => x / w.sum)) <
                      carg.list.reduceOption.length := by
                    have := argmaxPair_fst_lt _ hmne
                    rw [List.length_map] at this
                    rw [← hlen]
                    exact this
                  rw [List.getElem?_eq_getElem hlt]
                  rfl
          · rw [if_pos hlen,
              if_pos (show specWeightsBad carg.list.reduceOption.length
                (WeightsArg.seq w) from Or.inl hlen)]
            rfl
      · rw [if_pos h3, if_pos h3]
        rfl

theorem resultClass_ok_iff {α : Type}
    (e : Except PyError (CategoricalHyperparameter α)) :
    resultClass e = CtorOutcome.ok ↔ ∃ d, e = Except.ok d := by
  cases e with
  | ok d => simp [resultClass]
  | error err => cases err <;> simp [resultClass]

theorem specCtorOutcome_ok_iff {α : Type} [DecidableEq α]
    (carg : ChoicesArg α) (dv : Option α) (warg : WeightsArg) :
    specCtorOutcome carg dv warg = CtorOutcome.ok ↔
      ((∀ c ∈ carg.list, c ≠ none) ∧ carg.isSet = false ∧
       (carg.list.reduceOption).Nodup ∧ warg.isSet = false ∧
       (∀ w, warg = WeightsArg.seq w →
          w.length = carg.list.reduceOption.length ∧ (∀ x ∈ w, 0 ≤ x) ∧
          ∃ x ∈ w, x ≠ 0) ∧
       (∀ d0, dv = some d0 → d0 ∈ carg.list.reduceOption) ∧
       carg.list.reduceOption ≠ []) := by
  constructor
  · intro h
    unfold specCtorOutcome at h
    repeat' split at h
    all_goals simp_all
    rename_i hnone hset hnodup hwset hwbad hdbad hnil
    refine ⟨fun c hc hcn => hnone (hcn ▸ hc), fun w hwseq => ?_,
      fun d0 hdv => ?_⟩
    · subst hwseq
      have hw2 : ¬(w.length ≠ carg.list.reduceOption.length ∨
          (∃ x ∈ w, x < 0) ∨ (∀ x ∈ w, x = 0)) := hwbad
      push_neg at hw2
      exact hw2
    · subst hdv
      exact not_not.mp hdbad
  · rintro ⟨hnone, hset, hnodup, hwset, hw, hd, hne⟩
    have h1 : ¬ ((carg.list).any (fun c => c.isNone) = true) := by
      simp only [List.any_eq_true]
      rintro ⟨c, hc, hcn⟩
      exact hnone c hc (Option.isNone_iff_eq_none.mp hcn)
    have h4 : ¬ (warg.isSet = true) := by simp [hwset]
    have h5 : ¬ specWeightsBad carg.list.reduceOption.length warg := by
      cases warg with
      | noneArg => exact fun h => h
      | unorderedSet w => exact fun h => h
      | seq w =>
        obtain ⟨hlen, hpos, hex⟩ := hw w rfl
        rintro (hb | hb | hb)
        · exact hb hlen
        · obtain ⟨x, hx, hxlt⟩ := hb
          exact absurd hxlt (not_lt.mpr (hpos x hx))
        · obtain ⟨x, hx, hxne⟩ := hex
          exact hxne (hb x hx)
    have h6 : ¬ specDefaultBad carg.list.reduceOption dv := by
      cases dv with
      | none => exact fun h => h
      | some d0 => exact fun hnm => hnm (hd d0 rfl)
    unfold specCtorOutcome
    rw [if_neg h1, if_neg (by simp [hset]), if_neg (not_not_intro hnodup),
      if_neg h4, if_neg h5, if_neg h6, if_neg hne]

/-- C2 (amended): the constructor raises TypeError (not ValueError) for a
None choice, set choices or set weights; ValueError for duplicate choices,
weight/choice length mismatch, a negative weight, all-zero weights, or an
explicit default not among the choices (the checks applied in source order);
ZeroDivisionError for empty uniform choices; and construction succeeds
exactly when none of these conditions holds. -/
theorem ctor_error_classification {α : Type} [DecidableEq α] (name : String)
    (carg : ChoicesArg α) (dv : Option α) (warg : WeightsArg) :
    resultClass (mkCategorical name carg dv warg) =
      specCtorOutcome carg dv warg ∧
    ((∃ d, mkCategorical name carg dv warg = Except.ok d) ↔
      ((∀ c ∈ carg.list, c ≠ none) ∧ carg.isSet = false ∧
       (carg.list.reduceOption).Nodup ∧ warg.isSet = false ∧
       (∀ w, warg = WeightsArg.seq w →
          w.length = carg.list.reduceOption.length ∧ (∀ x ∈ w, 0 ≤ x) ∧
          ∃ x ∈ w, x ≠ 0) ∧
       (∀ d0, dv = some d0 → d0 ∈ carg.list.reduceOption) ∧
       carg.list.reduceOption ≠ [])) := by
  refine ⟨resultClass_mk name carg dv warg, ?_⟩
  rw [← resultClass_ok_iff, resultClass_mk name carg dv warg,
    specCtorOutcome_ok_iff]

/-- C2 counterexample: constructing with a None choice raises TypeError, not
the ValueError the claim states; likewise a set of choices. -/
theorem ctor_none_choice_cex :
    resultClass (mkCategorical "x" (ChoicesArg.seq [(none : Option ℕ)])
      none WeightsArg.noneArg) = CtorOutcome.typeError ∧
    resultClass (mkCategorical "x" (ChoicesArg.seq [(none : Option ℕ)])
      none WeightsArg.noneArg) ≠ CtorOutcome.valueError ∧
    resultClass (mkCategorical "x"
      (ChoicesArg.unorderedSet [some (0 : ℕ)]) none WeightsArg.noneArg) =
      CtorOutcome.typeError := by
  decide

/-- Witness for C2 at a concrete well-formed input. -/
theorem ctor_error_classification_witness :
    resultClass (mkCategorical "a" (ChoicesArg.seq [some (0 : ℕ), some 1])
        none WeightsArg.noneArg) =
      specCtorOutcome (ChoicesArg.seq [some (0 : ℕ), some 1]) none
        WeightsArg.noneArg ∧
    (∃ d, mkCategorical "a" (ChoicesArg.seq [some (0 : ℕ), some 1]) none
        WeightsArg.noneArg = Except.ok d) := by
  constructor
  · exact (ctor_error_classification "a"
      (ChoicesArg.seq [some (0 : ℕ), some 1]) none WeightsArg.noneArg).1
  · refine (ctor_error_classification "a"
      (ChoicesArg.seq [some (0 : ℕ), some 1]) none WeightsArg.noneArg).2.mpr
      ⟨by decide, rfl, by decide, rfl, ?_, ?_, by decide⟩
    · intro w hw
      exact absurd hw (by simp)
    · intro d0 hd0
      exact absurd hd0 (by simp)

/-- C4: when no explicit default is supplied, the resolved default is the
first choice when weights is None, and the choice at the first index
attaining the maximum probability (ties broken by first-seen order) when
weights are given. -/
theorem default_resolution {α : Type} [DecidableEq α] (name : String)
    (carg : ChoicesArg α) (warg : WeightsArg)
    (d : CategoricalHyperparameter α)
    (h : mkCategorical name carg none warg = Except.ok d) :
    (warg = WeightsArg.noneArg → ∃ t, d.choices = d.default_value :: t) ∧
    (∀ w, warg = WeightsArg.seq w →
      ∃ (i : ℕ) (p : ℚ), d.choices[i]? = some d.default_value ∧
        d.probabilities[i]? = some p ∧
        (∀ (j : ℕ) (q : ℚ), d.probabilities[j]? = some q → q ≤ p) ∧
        (∀ (j : ℕ) (q : ℚ), j < i → d.probabilities[j]? = some q → q < p)) := by
  simp only [mkCategorical, checkDefault, finishInit] at h
  repeat' (split at h)
  all_goals try exact Except.noConfusion h
  all_goals try (rename_i heq; exact Option.noConfusion heq)
  all_goals injection h with h2
  all_goals subst h2
  all_goals dsimp only
  all_goals first
    | exact ⟨fun _ => ⟨_, by assumption⟩, fun w hw => WeightsArg.noConfusion hw⟩
    | (rename_i w hlen hneg hall x c heq
       refine ⟨fun hw => WeightsArg.noConfusion hw, fun w0 hw0 => ?_⟩
       injection hw0 with hww
       subst hww
       have hwne : w ≠ [] := fun hnil => hall (by simp [hnil])
       have hmne : (w.map (fun x => x / w.sum)) ≠ [] := by simp [hwne]
       refine ⟨np_argmax (w.map (fun x => x / w.sum)),
         (argmaxPair (w.map (fun x => x / w.sum))).2, heq,
         argmaxPair_snd_getElem _ hmne,
         fun j q hq => argmaxPair_le _ j q hq,
         fun j q hj hq => argmaxPair_first _ j q hj hq⟩)

/-- Witness for C4 at a concrete uniform input. -/
theorem default_resolution_witness :
    ∃ d, mkCategorical "a" (ChoicesArg.seq [some (0 : ℕ), some 1]) none
        WeightsArg.noneArg = Except.ok d ∧
      ∃ t, d.choices = d.default_value :: t := by
  obtain ⟨d, hd⟩ : ∃ d, mkCategorical "a"
      (ChoicesArg.seq [some (0 : ℕ), some 1]) none WeightsArg.noneArg =
      Except.ok d := ⟨_, rfl⟩
  exact ⟨d, hd, (default_resolution "a" _ _ d hd).1 rfl⟩

/-- C5: for a valid weight vector w the constructed probabilities are
pointwise w[i] / sum(w) and sum to exactly 1; with weights None every
probability is 1/size and they sum to 1. -/
theorem probability_normalization {α : Type} [DecidableEq α] (name : String)
    (carg : ChoicesArg α) (dv : Option α) :
    (∀ w d, mkCategorical name carg dv (WeightsArg.seq w) = Except.ok d →
      d.probabilities.length = d.choices.length ∧
      (∀ (i : ℕ) (x : ℚ), w[i]? = some x →
        d.probabilities[i]? = some (x / w.sum)) ∧
      d.probabilities.sum = 1) ∧
    (∀ d, mkCategorical name carg dv WeightsArg.noneArg = Except.ok d →
      0 < d.size ∧
      d.probabilities = List.replicate d.size ((1 : ℚ) / (d.size : ℚ)) ∧
      d.probabilities.sum = 1) := by
  constructor
  · intro w d h
    simp only [mkCategorical, checkDefault, finishInit] at h
    repeat' (split at h)
    all_goals try exact Except.noConfusion h
    all_goals injection h with h2
    all_goals subst h2
    all_goals dsimp only
    all_goals (
      have hlen2 : ¬(w.length ≠ carg.list.reduceOption.length) := by assumption
      have hlen : w.length = carg.list.reduceOption.length := not_not.mp hlen2
      have hneg : ¬(w.any fun x => decide (x < 0)) = true := by assumption
      have hall : ¬(w.all fun x => decide (x = 0)) = true := by assumption
      have hpos : ∀ x ∈ w, 0 ≤ x := by simpa using hneg
      have hex : ∃ x ∈ w, x ≠ 0 := by simpa using hall
      have hsum : 0 < w.sum := sum_pos_of_nonneg_of_ne_zero w hpos hex
      refine ⟨by simp [hlen], fun i x hx => ?_, ?_⟩
      · rw [List.getElem?_map, hx]
        rfl
      · rw [sum_map_div]
        exact div_self (ne_of_gt hsum))
  · intro d h
    simp only [mkCategorical, checkDefault, finishInit] at h
    repeat' (split at h)
    all_goals try exact Except.noConfusion h
    all_goals injection h with h2
    all_goals subst h2
    all_goals dsimp only
    all_goals (
      have hsz : ¬(carg.list.reduceOption.length = 0) := by assumption
      refine ⟨Nat.pos_of_ne_zero hsz, rfl, ?_⟩
      rw [List.sum_replicate, nsmul_eq_mul, mul_one_div]
      exact div_self (Nat.cast_ne_zero.mpr hsz))

/-- Witness for C5 at a concrete weighted input with explicit default. -/
theorem probability_normalization_witness :
    ∃ d, mkCategorical "a" (ChoicesArg.seq [some (0 : ℕ), some 1]) (some 0)
        (WeightsArg.seq [1, 3]) = Except.ok d ∧
      (d.probabilities.length = d.choices.length ∧
       (∀ (i : ℕ) (x : ℚ), (([1, 3] : List ℚ))[i]? = some x →
          d.probabilities[i]? = some (x / (([1, 3] : List ℚ)).sum)) ∧
       d.probabilities.sum = 1) := by
  obtain ⟨d, hd⟩ : ∃ d, mkCategorical "a"
      (ChoicesArg.seq [some (0 : ℕ), some 1]) (some 0)
      (WeightsArg.seq [1, 3]) = Except.ok d := ⟨_, rfl⟩
  exact ⟨d, hd, (probability_normalization "a" _ (some 0)).1 [1, 3] d hd⟩

theorem eq_true_iff {α : Type} [DecidableEq α]
    (a b : CategoricalHyperparameter α)
    (hb : b.choices.Nodup)
    (hal : a.probabilities.length = a.choices.length)
    (hbl : b.probabilities.length = b.choices.length) :
    a.eq b = true ↔
      (a.name = b.name ∧ a.default_value = b.default_value ∧
       a.choices.length = b.choices.length ∧
       ∀ (i : ℕ) (c : α) (p : ℚ), a.choices[i]? = some c →
         a.probabilities[i]? = some p →
         ∃ j : ℕ, b.choices[j]? = some c ∧ b.probabilities[j]? = some p) := by
  unfold CategoricalHyperparameter.eq
  by_cases hN : a.name ≠ b.name ∨ a.default_value ≠ b.default_value ∨
      a.choices.length ≠ b.choices.length
  · rw [if_pos hN]
    constructor
    · intro hfalse
      exact (Bool.false_ne_true hfalse).elim
    rintro ⟨h1, h2, h3, _⟩
    rcases hN with hn | hn | hn
    · exact (hn h1).elim
    · exact (hn h2).elim
    · exact (hn h3).elim
  · push_neg at hN
    obtain ⟨hn, hd, hl⟩ := hN
    rw [if_neg (by simp [hn, hd, hl])]
    rw [List.all_eq_true]
    constructor
    · intro hall
      refine ⟨hn, hd, hl, ?_⟩
      intro i c p hc hp
      obtain ⟨hci, hcv⟩ := List.getElem?_eq_some.mp hc
      obtain ⟨hpi, hpv⟩ := List.getElem?_eq_some.mp hp
      have hzl : i < (a.choices.zip a.probabilities).length := by
        rw [List.length_zip]
        omega
      have hmem : (c, p) ∈ a.choices.zip a.probabilities := by
        have : (a.choices.zip a.probabilities)[i] = (c, p) := by
          rw [List.getElem_zip, hcv, hpv]
        exact this ▸ List.getElem_mem hzl
      have hcp := hall _ hmem
      by_cases hcb : c ∈ b.choices
      · rw [if_pos hcb] at hcp
        have hprob := of_decide_eq_true hcp
        have hjlt : b.choices.indexOf c < b.choices.length :=
          List.indexOf_lt_length.mpr hcb
        refine ⟨b.choices.indexOf c, ?_, ?_⟩
        · rw [List.getElem?_eq_getElem hjlt, List.getElem_indexOf hjlt]
        · have hjlt2 : b.choices.indexOf c < b.probabilities.length := by
            omega
          rw [List.getElem?_eq_getElem hjlt2]
          rw [List.getD_eq_getElem?_getD, List.getElem?_eq_getElem hjlt2]
            at hprob
          simp only [Option.getD_some] at hprob
          rw [hprob]
      · rw [if_neg hcb] at hcp
        exact absurd hcp (by simp)
    · intro hfa cp hcp
      obtain ⟨-, -, -, hfa⟩ := hfa
      obtain ⟨i, hi, hiv⟩ := List.mem_iff_getElem.mp hcp
      have hil : i < a.choices.length := by
        rw [List.length_zip] at hi
        omega
      have hil2 : i < a.probabilities.length := by
        rw [List.length_zip] at hi
        omega
      have hcpv : cp = (a.choices[i], a.probabilities[i]) := by
        rw [← hiv, List.getElem_zip]
      obtain ⟨j, hjc, hjp⟩ := hfa i a.choices[i] a.probabilities[i]
        (List.getElem?_eq_getElem hil) (List.getElem?_eq_getElem hil2)
      obtain ⟨hjl, hjcv⟩ := List.getElem?_eq_some.mp hjc
      obtain ⟨hjl2, hjpv⟩ := List.getElem?_eq_some.mp hjp
      have hmemb : a.choices[i] ∈ b.choices := by
        rw [← hjcv]
        exact List.getElem_mem hjl
      rw [hcpv]
      rw [if_pos hmemb]
      have hidx : b.choices.indexOf a.choices[i] = j := by
        rw [← hjcv]
        exact List.indexOf_getElem hb j hjl
      rw [hidx, List.getD_eq_getElem?_getD, List.getElem?_eq_getElem hjl2,
        hjpv]
      simp

theorem pointwise_swap {α : Type} [DecidableEq α]
    (A B : List α) (P Q : List ℚ)
    (hA : A.Nodup) (hB : B.Nodup) (hlen : A.length = B.length)
    (hPA : P.length = A.length) (hQB : Q.length = B.length)
    (h : ∀ (i : ℕ) (c : α) (p : ℚ), A[i]? = some c → P[i]? = some p →
      ∃ j : ℕ, B[j]? = some c ∧ Q[j]? = some p) :
    ∀ (j : ℕ) (c : α) (p : ℚ), B[j]? = some c → Q[j]? = some p →
      ∃ i : ℕ, A[i]? = some c ∧ P[i]? = some p := by
  have hgetP : ∀ i, i < A.length → P[i]? = some (P.getD i 0) := by
    intro i hi
    have hiP : i < P.length := by omega
    rw [List.getD_eq_getElem?_getD, List.getElem?_eq_getElem hiP]
    rfl
  have hmemB : ∀ i, (hi : i < A.length) → A[i] ∈ B := by
    intro i hi
    obtain ⟨j, hjc, _⟩ := h i A[i] (P.getD i 0)
      (List.getElem?_eq_getElem hi) (hgetP i hi)
    exact List.getElem?_mem hjc
  have hflt : ∀ i : Fin A.length, List.indexOf A[i.1] B < A.length := by
    intro i
    have := List.indexOf_lt_length.mpr (hmemB i.1 i.2)
    omega
  set f : Fin A.length → Fin A.length :=
    fun i => ⟨List.indexOf A[i.1] B, hflt i⟩ with hf
  have hfB : ∀ i : Fin A.length, B[(f i).1]? = some A[i.1] := by
    intro i
    have hlt : List.indexOf A[i.1] B < B.length :=
      List.indexOf_lt_length.mpr (hmemB i.1 i.2)
    have hval : (f i).1 = List.indexOf A[i.1] B := rfl
    rw [hval, List.getElem?_eq_getElem hlt, List.getElem_indexOf hlt]
  have hinj : Function.Injective f := by
    intro i1 i2 hi
    have h2 : B[(f i1).1]? = B[(f i2).1]? := by rw [hi]
    rw [hfB i1, hfB i2] at h2
    have h3 : A[i1.1] = A[i2.1] := Option.some_inj.mp h2
    exact Fin.ext (hA.getElem_inj_iff.mp h3)
  have hsurj : Function.Surjective f :=
    Finite.injective_iff_surjective.mp hinj
  intro j c p hjc hjp
  obtain ⟨hjl, hjcv⟩ := List.getElem?_eq_some.mp hjc
  obtain ⟨hjl2, hjpv⟩ := List.getElem?_eq_some.mp hjp
  obtain ⟨i, hfi⟩ := hsurj ⟨j, by omega⟩
  have hiP : i.1 < P.length := by
    have := i.2
    omega
  have hBj : B[j]? = some A[i.1] := by
    have h2 := hfB i
    rw [show (f i).1 = j from congrArg Fin.val hfi] at h2
    exact h2
  have hAc : A[i.1] = c := Option.some_inj.mp (hBj.symm.trans hjc)
  obtain ⟨j2, hj2c, hj2p⟩ := h i.1 A[i.1] (P.getD i.1 0)
    (List.getElem?_eq_getElem i.2) (hgetP i.1 i.2)
  obtain ⟨hj2l, hj2cv⟩ := List.getElem?_eq_some.mp hj2c
  have hj2j : j2 = j := by
    apply hB.getElem_inj_iff.mp
    rw [hj2cv, hAc, hjcv]
  subst hj2j
  have hPp : P.getD i.1 0 = p :=
    Option.some_inj.mp (hj2p.symm.trans hjp)
  refine ⟨i.1, ?_, ?_⟩
  · rw [List.getElem?_eq_getElem i.2, hAc]
  · rw [← hPp]
    exact hgetP i.1 i.2

/-- C6: two constructed domains compare equal exactly when they share name,
default value and choice count, and every (choice, probability) pair of the
first occurs (at any position) in the second with an exactly equal
probability; choice order is irrelevant. -/
theorem domain_equality {α : Type} [DecidableEq α]
    (n1 n2 : String) (c1 c2 : ChoicesArg α) (d1 d2 : Option α)
    (w1 w2 : WeightsArg) (a b : CategoricalHyperparameter α)
    (ha : mkCategorical n1 c1 d1 w1 = Except.ok a)
    (hb : mkCategorical n2 c2 d2 w2 = Except.ok b) :
    a.eq b = true ↔
      (a.name = b.name ∧ a.default_value = b.default_value ∧
       a.choices.length = b.choices.length ∧
       ∀ (i : ℕ) (c : α) (p : ℚ), a.choices[i]? = some c →
         a.probabilities[i]? = some p →
         ∃ j : ℕ, b.choices[j]? = some c ∧ b.probabilities[j]? = some p) :=
  eq_true_iff a b (mk_ok_nodup hb) (mk_ok_prob_length ha)
    (mk_ok_prob_length hb)

/-- Reflexivity of the modelled equality on constructed domains. -/
theorem eq_self_of_ok {α : Type} [DecidableEq α] {name : String}
    {carg : ChoicesArg α} {dv : Option α} {warg : WeightsArg}
    {d : CategoricalHyperparameter α}
    (h : mkCategorical name carg dv warg = Except.ok d) :
    d.eq d = true :=
  (eq_true_iff d d (mk_ok_nodup h) (mk_ok_prob_length h)
    (mk_ok_prob_length h)).mpr
    ⟨rfl, rfl, rfl, fun _ _ _ hc hp => ⟨_, hc, hp⟩⟩

/-- Witness for C6 at two concrete domains with permuted choices. -/
theorem domain_equality_witness :
    ∃ a b, mkCategorical "x" (ChoicesArg.seq [some (0 : ℕ), some 1]) (some 1)
        (WeightsArg.seq [1, 3]) = Except.ok a ∧
      mkCategorical "x" (ChoicesArg.seq [some 1, some (0 : ℕ)]) (some 1)
        (WeightsArg.seq [3, 1]) = Except.ok b ∧
      (a.eq b = true ↔
        (a.name = b.name ∧ a.default_value = b.default_value ∧
         a.choices.length = b.choices.length ∧
         ∀ (i : ℕ) (c : ℕ) (p : ℚ), a.choices[i]? = some c →
           a.probabilities[i]? = some p →
           ∃ j : ℕ, b.choices[j]? = some c ∧
             b.probabilities[j]? = some p)) := by
  obtain ⟨a, hA⟩ : ∃ a, mkCategorical "x"
      (ChoicesArg.seq [some (0 : ℕ), some 1]) (some 1)
      (WeightsArg.seq [1, 3]) = Except.ok a := ⟨_, rfl⟩
  obtain ⟨b, hB⟩ : ∃ b, mkCategorical "x"
      (ChoicesArg.seq [some 1, some (0 : ℕ)]) (some 1)
      (WeightsArg.seq [3, 1]) = Except.ok b := ⟨_, rfl⟩
  exact ⟨a, b, hA, hB, domain_equality "x" "x" _ _ _ _ _ _ a b hA hB⟩

/-- C9: the modelled equality is symmetric on constructed domains: the
one-directional probe of the left operand's choices, together with equal
counts and duplicate-free choices, forces the converse probe to succeed. -/
theorem domain_equality_symm {α : Type} [DecidableEq α]
    (n1 n2 : String) (c1 c2 : ChoicesArg α) (d1 d2 : Option α)
    (w1 w2 : WeightsArg) (a b : CategoricalHyperparameter α)
    (ha : mkCategorical n1 c1 d1 w1 = Except.ok a)
    (hb : mkCategorical n2 c2 d2 w2 = Except.ok b)
    (h : a.eq b = true) : b.eq a = true := by
  have hiff1 := eq_true_iff a b (mk_ok_nodup hb) (mk_ok_prob_length ha)
    (mk_ok_prob_length hb)
  have hiff2 := eq_true_iff b a (mk_ok_nodup ha) (mk_ok_prob_length hb)
    (mk_ok_prob_length ha)
  obtain ⟨hn, hd, hl, hp⟩ := hiff1.mp h
  refine hiff2.mpr ⟨hn.symm, hd.symm, hl.symm, ?_⟩
  exact pointwise_swap a.choices b.choices a.probabilities b.probabilities
    (mk_ok_nodup ha) (mk_ok_nodup hb) hl (mk_ok_prob_length ha)
    (mk_ok_prob_length hb) hp

/-- Witness for C9 at a concrete pair of equal constructed domains. -/
theorem domain_equality_symm_witness :
    ∃ a, mkCategorical "x" (ChoicesArg.seq [some (0 : ℕ), some 1]) (some 1)
        (WeightsArg.seq [1, 3]) = Except.ok a ∧ a.eq a = true := by
  obtain ⟨a, hA⟩ : ∃ a, mkCategorical "x"
      (ChoicesArg.seq [some (0 : ℕ), some 1]) (some 1)
      (WeightsArg.seq [1, 3]) = Except.ok a := ⟨_, rfl⟩
  exact ⟨a, hA,
    domain_equality_symm "x" "x" _ _ _ _ _ _ a a hA hA (eq_self_of_ok hA)⟩

/-- C7: on any constructed domain, to_uniform succeeds and returns a new
domain with identical name, choices and default value, weights None, and
uniform probabilities 1/size (the original domain is untouched: to_uniform
is a pure function of it). -/
theorem to_uniform_spec {α : Type} [DecidableEq α] (name : String)
    (carg : ChoicesArg α) (dv : Option α) (warg : WeightsArg)
    (d : CategoricalHyperparameter α)
    (h : mkCategorical name carg dv warg = Except.ok d) :
    d.to_uniform = Except.ok (⟨d.choices, none, d.name, d.default_value,
      d.size, List.replicate d.size ((1 : ℚ) / (d.size : ℚ))⟩ :
      CategoricalHyperparameter α) := by
  have hnodup := mk_ok_nodup h
  have hmem := mk_ok_default_mem h
  have hne := mk_ok_ne_nil h
  have hsize := mk_ok_size h
  rw [hsize]
  unfold CategoricalHyperparameter.to_uniform mkCategorical
  rw [if_neg (show ¬ (((ChoicesArg.seq (d.choices.map some)).list).any
      (fun c => c.isNone)) = true by
    dsimp only [ChoicesArg.list]
    simp)]
  dsimp only [ChoicesArg.list, ChoicesArg.isSet]
  rw [if_neg Bool.false_ne_true, reduceOption_map_some,
    if_neg (not_not_intro hnodup)]
  unfold checkDefault
  dsimp only
  rw [if_neg (not_not_intro hmem)]
  unfold finishInit
  dsimp only
  rw [if_neg (fun h0 : d.choices.length = 0 =>
    hne (List.length_eq_zero.mp h0))]

/-- Witness for C7 at a concrete weighted domain. -/
theorem to_uniform_spec_witness :
    ∃ d, mkCategorical "x" (ChoicesArg.seq [some (0 : ℕ), some 1]) (some 1)
        (WeightsArg.seq [1, 3]) = Except.ok d ∧
      d.to_uniform = Except.ok (⟨d.choices, none, d.name, d.default_value,
        d.size, List.replicate d.size ((1 : ℚ) / (d.size : ℚ))⟩ :
        CategoricalHyperparameter ℕ) := by
  obtain ⟨d, hd⟩ : ∃ d, mkCategorical "x"
      (ChoicesArg.seq [some (0 : ℕ), some 1]) (some 1)
      (WeightsArg.seq [1, 3]) = Except.ok d := ⟨_, rfl⟩
  exact ⟨d, hd, to_uniform_spec "x" _ _ _ d hd⟩

/-- C8: writing a configuration space containing a categorical with weights
through the PCS writer fails with the weight-support error, in either
dialect. -/
theorem pcs_write_weighted_fails (dialect : PCSDialect)
    (hps : List (CategoricalHyperparameter String))
    (hp : CategoricalHyperparameter String) (hmem : hp ∈ hps)
    (hw : hp.weights.isSome = true) :
    pcs_write dialect hps = Except.error pcsWeightErrMsg := by
  induction hps with
  | nil => cases hmem
  | cons x t ih =>
    unfold pcs_write
    cases hmem with
    | head =>
      unfold pcs_write_categorical_line
      rw [if_pos hw]
    | tail _ hmem2 =>
      unfold pcs_write_categorical_line
      by_cases hx : x.weights.isSome = true
      · rw [if_pos hx]
      · rw [if_neg hx, ih hmem2]

/-- Witness for C8 at a concrete weighted categorical in the old dialect. -/
theorem pcs_write_weighted_fails_witness :
    pcs_write PCSDialect.oldDialect
      [⟨["a", "b"], some [(3 : ℚ)/10, 7/10], "a", "a", 2,
        [(3 : ℚ)/10, 7/10]⟩] = Except.error pcsWeightErrMsg :=
  pcs_write_weighted_fails PCSDialect.oldDialect _ _ (List.Mem.head _) rfl

end ConfigSpaceCat
